import Mathlib

/-!
Verification development for the pydsfapi connection core
(src/pydsfapi/src/pydsfapi/connections.py).

The stateful Python code is embedded as pure Lean functions with explicit
state passing.  Bytes are modelled at character granularity; the blocking
byte source (the UNIX socket) is modelled as an infinite sequence of recv
results (`Nat → List Char`), where an empty result models a transport that
the peer has closed (Python `socket.recv` returning `b""`).  Loops of the
source are given explicit fuel; a result of `none` / `timeout` for every
fuel value is the embedding of an infinite loop or an indefinitely
blocking call.
-/

namespace DSF

/-- The per-character contribution to the running brace count of the scan in
`get_json_object_end_index`: `+1` for an opening curly brace, `-1` for a
closing curly brace, `0` otherwise. -/
def braceDelta (c : Char) : Int :=
  if c = '{' then 1 else if c = '}' then -1 else 0

/-- The total brace count of a character list (sum of `braceDelta`). -/
def depthList : List Char → Int
  | [] => 0
  | c :: rest => braceDelta c + depthList rest

/-- Embeds the `while index < len(json_string)` loop of
`BaseConnection.get_json_object_end_index`: `count` is the running brace
count, `index` the current position.  Each step updates the count for the
current token, returns `-1` when the count goes negative, returns
`index + 1` when the count comes back to zero, and otherwise advances. -/
def getJsonObjectEndIndexAux : List Char → Int → Nat → Int
  | [], _, _ => -1
  | token :: rest, count, index =>
    let count1 := if token = '{' then count + 1 else if token = '}' then count - 1 else count
    if count1 < 0 then -1
    else if count1 = 0 then (index : Int) + 1
    else getJsonObjectEndIndexAux rest count1 (index + 1)

/-- Embeds the static method `BaseConnection.get_json_object_end_index`:
return the end index of the next full JSON object in the string (found by
counting curly braces), `-1` if the count goes negative or the string is
exhausted. -/
def get_json_object_end_index (json_string : List Char) : Int :=
  getJsonObjectEndIndexAux json_string 0 0

/-- `BUFF_SIZE = 4096` from `BaseConnection.receive_json`. -/
def BUFF_SIZE : Nat := 4096

/-- The connection state used by `receive_json`: `socket` is `none` when the
socket attribute is `None` (never connected or closed), `pos` is the index
of the next recv result to be consumed from the byte source, and `input`
is the read-ahead buffer `self.input`. -/
structure ConnState where
  socket : Option Unit
  pos : Nat
  input : List Char
  deriving DecidableEq

/-- Result of one `receive_json` call: `err` embeds the
`RuntimeError("socket is closed or missing")` raise, `timeout` means the
call is still looping or blocked after the given fuel (an infinite loop in
the limit), `ok` carries the returned JSON text and the updated state. -/
inductive RecvResult where
  | err
  | timeout
  | ok (json : List Char) (st : ConnState)
  deriving DecidableEq

/-- A byte source delivering the given list of chunks, one per recv call, in
order; once the list is exhausted every further recv returns the empty
chunk (a transport closed by the peer). -/
def chunkSource (chunks : List (List Char)) (i : Nat) : List Char :=
  (chunks.drop i).headD []

/-- Embeds the inner `while True` recv-aggregation loop of
`BaseConnection.receive_json`: repeatedly recv parts, concatenating them,
until a part shorter than `BUFF_SIZE` arrives.  `pos` indexes the next
recv result of the source; the result is the aggregated data and the next
position.  `none` means the fuel ran out. -/
def recvAll (src : Nat → List Char) : Nat → Nat → Option (List Char × Nat)
  | _, 0 => none
  | pos, fuel + 1 =>
    let part := src pos
    if part.length < BUFF_SIZE then some (part, pos + 1)
    else
      match recvAll src (pos + 1) fuel with
      | some (rest, pos1) => some (part ++ rest, pos1)
      | none => none

/-- Embeds the outer `while not found` loop of `BaseConnection.receive_json`:
refill the buffer from the source and re-run the end-index scan until a
full object (end index greater than 1) is present.  Returns the matched
prefix, the retained remainder, and the new source position; `none` means
the fuel ran out (the loop did not terminate within the fuel). -/
def receiveJsonLoop (src : Nat → List Char) : List Char → Nat → Nat → Option (List Char × List Char × Nat)
  | _, _, 0 => none
  | json_string, pos, fuel + 1 =>
    match recvAll src pos (fuel + 1) with
    | none => none
    | some (data, pos1) =>
      let js := json_string ++ data
      let e := get_json_object_end_index js
      if 1 < e then some (js.take e.toNat, js.drop e.toNat, pos1)
      else receiveJsonLoop src js pos1 fuel

/-- Embeds `BaseConnection.receive_json`: raise if the socket is missing;
otherwise, if the read-ahead buffer already holds a full object (end index
greater than 1) split it off without reading; otherwise enter the refill
loop.  On success the state keeps the remainder in `input` and advances
`pos` past the consumed recv results. -/
def receive_json (src : Nat → List Char) (st : ConnState) (fuel : Nat) : RecvResult :=
  match st.socket with
  | none => .err
  | some _ =>
    let json_string := st.input
    let e := get_json_object_end_index json_string
    if 1 < e then
      .ok (json_string.take e.toNat) { st with input := json_string.drop e.toNat }
    else
      match receiveJsonLoop src json_string st.pos fuel with
      | none => .timeout
      | some (res, inp, pos1) => .ok res { st with input := inp, pos := pos1 }

/-- The response envelope received by `perform_command` via
`receive_response`: a success flag, the error kind and message strings, and
an optional result payload. -/
structure CommandResponse (α : Type) where
  success : Bool
  error_type : String
  error_message : String
  result : Option α

/-- Outcome of `BaseConnection.perform_command`: normal return of the
response, the raise of `TaskCanceledException(response.error_message)`, or
the raise of `InternalServerException(command, error_type, error_message)`
carrying the original command and the verbatim error strings. -/
inductive CommandOutcome (γ α : Type) where
  | success (response : CommandResponse α)
  | taskCanceled (error_message : String)
  | internalServer (command : γ) (error_type : String) (error_message : String)

/-- Embeds `BaseConnection.perform_command` after the response envelope has
been received (the send and the framed receive are modelled separately by
`receive_json`): on success optionally decode the result through `cls`,
otherwise raise `TaskCanceledException` exactly when the error type equals
`"TaskCanceledException"`, and `InternalServerException` otherwise. -/
def perform_command {γ α : Type} (command : γ) (cls : Option (α → α))
    (response : CommandResponse α) : CommandOutcome γ α :=
  if response.success then
    match cls, response.result with
    | some from_json, some r => .success { response with result := some (from_json r) }
    | _, _ => .success response
  else if response.error_type = "TaskCanceledException" then
    .taskCanceled response.error_message
  else
    .internalServer command response.error_type response.error_message

/-- Operations performed on the transport by `connect` and `close`. -/
inductive TransportOp where
  | sockConnect
  | recv
  | send
  | close
  deriving DecidableEq

/-- The server greeting parsed from the first recv of `connect`
(`ServerInitMessage`): a protocol version and a server-assigned id. -/
structure ServerInitMessage where
  version : Nat
  id : String
  deriving DecidableEq

/-- The environment a `connect` call runs against: whether the transport
connect succeeds, the parsed greeting (`none` embeds a recv or JSON-parse
failure on the greeting), the outcome of the `is_compatible()` version
check (modelled from the spec, since `serverinitmessage` is not under
src/: incompatibility is a hard failure), whether the init-message write
succeeds, and the init response envelope fields. -/
structure HandshakeWorld where
  connectOk : Bool
  greeting : Option ServerInitMessage
  compatible : Bool
  sendOk : Bool
  respSuccess : Bool
  respErrorType : String
  respErrorMessage : String

/-- Result of `BaseConnection.connect`: success with the recorded server id,
or one of the five failure modes (each a raise in the source). -/
inductive HandshakeResult where
  | connected (id : String)
  | connectFailed
  | greetingParseFailed
  | incompatibleVersion
  | sendFailed
  | initRefused (error_type : String) (error_message : String)
  deriving DecidableEq

/-- The connection attributes written by `connect`: the socket handle
(`some ()` embeds a non-`None`, open socket) and the recorded id. -/
structure HandshakeState where
  socket : Option Unit
  id : Option String
  deriving DecidableEq

/-- Embeds `BaseConnection.connect` step by step: create and connect the
socket, recv and parse the greeting, check version compatibility, record
the id, send the init message, receive the init response and check its
success flag.  Returns the result, the final attribute state, and the
trace of transport operations attempted.  The source has no try/finally:
every raise propagates with `self.socket` still set, so no failure path
emits `TransportOp.close` or clears the socket. -/
def connect (w : HandshakeWorld) : HandshakeResult × HandshakeState × List TransportOp :=
  let sock : Option Unit := some ()
  if w.connectOk = false then (.connectFailed, ⟨sock, none⟩, [.sockConnect])
  else
    match w.greeting with
    | none => (.greetingParseFailed, ⟨sock, none⟩, [.sockConnect, .recv])
    | some g =>
      if w.compatible = false then (.incompatibleVersion, ⟨sock, none⟩, [.sockConnect, .recv])
      else if w.sendOk = false then (.sendFailed, ⟨sock, some g.id⟩, [.sockConnect, .recv, .send])
      else if w.respSuccess = false then
        (.initRefused w.respErrorType w.respErrorMessage, ⟨sock, some g.id⟩,
          [.sockConnect, .recv, .send, .recv])
      else (.connected g.id, ⟨sock, some g.id⟩, [.sockConnect, .recv, .send, .recv])

/-- Embeds `BaseConnection.close`: if the socket is not `None`, close it and
set the attribute to `None`; otherwise do nothing.  Returns the new socket
attribute and the transport operations performed. -/
def close (socket : Option Unit) : Option Unit × List TransportOp :=
  match socket with
  | some _ => (none, [TransportOp.close])
  | none => (none, [])

/-- Body characters of a JSON string literal: any character other than a
quote or backslash, or a backslash-escape pair.  Part of the JSON grammar
modelled from the spec (the source delegates JSON syntax to the Python
`json` module, which is not under src/). -/
inductive JsonStringBody : List Char → Prop where
  | nil : JsonStringBody []
  | plain (c : Char) (rest : List Char) (h1 : c ≠ '"') (h2 : c ≠ '\\') :
      JsonStringBody rest → JsonStringBody (c :: rest)
  | escaped (c : Char) (rest : List Char) :
      JsonStringBody rest → JsonStringBody ('\\' :: c :: rest)

/-- A JSON string literal text: a quoted string body. -/
def JsonStringText (s : List Char) : Prop :=
  ∃ body, JsonStringBody body ∧ s = '"' :: body ++ ['"']

/-- A JSON number text: an optional minus sign followed by a nonempty digit
sequence (a faithful-enough fragment of the JSON number grammar for this
development). -/
def JsonNumberText (s : List Char) : Prop :=
  ∃ ds : List Char, ds ≠ [] ∧ (∀ c ∈ ds, c.isDigit) ∧ (s = ds ∨ s = '-' :: ds)

mutual
/-- Modelled from the spec: the wire format is UTF-8 text where each message
is a single serialized JSON object, written compactly (the client side
serializes with separators `","` and `":"` and no added whitespace).
`JsonValueText s` states that `s` is the text of one JSON value. -/
inductive JsonValueText : List Char → Prop where
  | nullV : JsonValueText ['n', 'u', 'l', 'l']
  | trueV : JsonValueText ['t', 'r', 'u', 'e']
  | falseV : JsonValueText ['f', 'a', 'l', 's', 'e']
  | numV (s : List Char) : JsonNumberText s → JsonValueText s
  | strV (s : List Char) : JsonStringText s → JsonValueText s
  | objV (s : List Char) : JsonObjectText s → JsonValueText s
  | arrV (s : List Char) : JsonArrayText s → JsonValueText s

/-- The text of one syntactically valid JSON object (compact form). -/
inductive JsonObjectText : List Char → Prop where
  | empty : JsonObjectText ['{', '}']
  | nonempty (ms : List Char) : JsonMembersText ms → JsonObjectText ('{' :: ms ++ ['}'])

/-- The text of a nonempty comma-separated member list of a JSON object. -/
inductive JsonMembersText : List Char → Prop where
  | single (k v : List Char) : JsonStringText k → JsonValueText v →
      JsonMembersText (k ++ ':' :: v)
  | more (k v rest : List Char) : JsonStringText k → JsonValueText v →
      JsonMembersText rest → JsonMembersText (k ++ ':' :: v ++ ',' :: rest)

/-- The text of a JSON array (compact form). -/
inductive JsonArrayText : List Char → Prop where
  | empty : JsonArrayText ['[', ']']
  | nonempty (es : List Char) : JsonElementsText es → JsonArrayText ('[' :: es ++ [']'])

/-- The text of a nonempty comma-separated element list of a JSON array. -/
inductive JsonElementsText : List Char → Prop where
  | single (v : List Char) : JsonValueText v → JsonElementsText v
  | more (v rest : List Char) : JsonValueText v → JsonElementsText rest →
      JsonElementsText (v ++ ',' :: rest)
end

/-- A message text on which the brace-count framing of the source agrees
with JSON structure: at least two characters, total brace count zero, and
strictly positive brace count on every nonempty proper prefix.  Every
compact JSON object text that contains no curly brace inside a string
literal satisfies this. -/
def BalancedObject (m : List Char) : Prop :=
  2 ≤ m.length ∧ depthList m = 0 ∧
    ∀ k, k < m.length → 0 < k → 0 < depthList (m.take k)

instance (m : List Char) : Decidable (BalancedObject m) := by
  unfold BalancedObject; infer_instance

/-- `YieldsMsgs src st msgs` states that successive `receive_json` calls
starting from state `st` return exactly the texts in `msgs`, in order
(each call with some sufficient fuel). -/
def YieldsMsgs (src : Nat → List Char) : ConnState → List (List Char) → Prop
  | _, [] => True
  | st, m :: rest =>
      ∃ fuel st1, receive_json src st fuel = RecvResult.ok m st1 ∧ YieldsMsgs src st1 rest

/-- The compact text of the JSON object whose single member maps key `a` to
the one-character string containing a closing curly brace. -/
def bracePayloadMsg : List Char :=
  ['{', '"', 'a', '"', ':', '"', '}', '"', '}']

/-- The compact text of the JSON object whose single member maps key `a` to
the three-character string closing brace, opening brace, closing brace.
The brace scan cuts this object after its seventh character, leaving a
retained buffer that itself begins with a complete-object frame. -/
def nestedBracePayloadMsg : List Char :=
  ['{', '"', 'a', '"', ':', '"', '}', '{', '}', '"', '}']

/-- A handshake environment whose transport connects and delivers a parseable
greeting that fails the version-compatibility check. -/
def incompatibleWorld : HandshakeWorld :=
  ⟨true, some ⟨1, "srv"⟩, false, true, true, "", ""⟩

theorem auxStep (c : Char) (count : Int) :
    (if c = '{' then count + 1 else if c = '}' then count - 1 else count) =
      count + braceDelta c := by
  unfold braceDelta
  split_ifs <;> omega

theorem braceDelta_le_one (c : Char) : braceDelta c ≤ 1 := by
  unfold braceDelta; split_ifs <;> omega

theorem neg_one_le_braceDelta (c : Char) : -1 ≤ braceDelta c := by
  unfold braceDelta; split_ifs <;> omega

theorem braceDelta_eq_neg_one (c : Char) (h : braceDelta c = -1) : c = '}' := by
  by_cases h1 : c = '{'
  · simp [braceDelta, h1] at h
  · by_cases h2 : c = '}'
    · exact h2
    · simp [braceDelta, h1, h2] at h

theorem depthList_append (a b : List Char) :
    depthList (a ++ b) = depthList a + depthList b := by
  induction a with
  | nil => simp [depthList]
  | cons c a ih => simp [depthList, ih, add_assoc]

theorem depthList_singleton (c : Char) : depthList [c] = braceDelta c := by
  simp [depthList]

theorem getAux_cons (c : Char) (rest : List Char) (count : Int) (index : Nat) :
    getJsonObjectEndIndexAux (c :: rest) count index =
      (if count + braceDelta c < 0 then -1
       else if count + braceDelta c = 0 then (index : Int) + 1
       else getJsonObjectEndIndexAux rest (count + braceDelta c) (index + 1)) := by
  simp only [getJsonObjectEndIndexAux, auxStep]

/-- The scan passes over a block whose running count stays strictly
positive, accumulating its brace count into `count` and its length into
`index`. -/
theorem getAux_stays_pos (a b : List Char) (count : Int) (index : Nat)
    (h : ∀ k, k < a.length → 0 < count + depthList (a.take (k + 1))) :
    getJsonObjectEndIndexAux (a ++ b) count index =
      getJsonObjectEndIndexAux b (count + depthList a) (index + a.length) := by
  induction a generalizing count index with
  | nil => simp [depthList]
  | cons c a ih =>
    have h0 : 0 < count + braceDelta c := by
      have := h 0 (by simp)
      simpa [depthList] using this
    rw [List.cons_append, getAux_cons, if_neg (by omega), if_neg (by omega),
      ih (count + braceDelta c) (index + 1) ?_]
    · congr 1
      · simp [depthList]; omega
      · simp [List.length_cons]; omega
    · intro k hk
      have := h (k + 1) (by simpa using Nat.succ_lt_succ hk)
      simpa [depthList, List.take_succ_cons, add_assoc] using this

/-- On a buffer that starts with a balanced object text the scan returns the
length of that object, whatever follows it. -/
theorem end_index_balanced_append (m rest : List Char) (hm : BalancedObject m) :
    get_json_object_end_index (m ++ rest) = (m.length : Int) := by
  obtain ⟨hlen, htot, hpos⟩ := hm
  have hne : m ≠ [] := by
    intro h
    subst h
    simp at hlen
  obtain ⟨g, hsplit⟩ : ∃ g, m.dropLast ++ [g] = m :=
    ⟨m.getLast hne, List.dropLast_append_getLast hne⟩
  have hdlen : m.dropLast.length = m.length - 1 := List.length_dropLast m
  have hdt : m.dropLast = m.take (m.length - 1) := List.dropLast_eq_take m
  have hD : 0 < depthList m.dropLast := by
    rw [hdt]
    exact hpos (m.length - 1) (by omega) (by omega)
  have htot2 : depthList m.dropLast + braceDelta g = 0 := by
    have := depthList_append m.dropLast [g]
    rw [hsplit, depthList_singleton] at this
    omega
  have hgd : braceDelta g = -1 := by
    have := braceDelta_le_one g
    have := neg_one_le_braceDelta g
    omega
  have hD1 : depthList m.dropLast = 1 := by omega
  have hstay : ∀ k, k < m.dropLast.length →
      0 < 0 + depthList (m.dropLast.take (k + 1)) := by
    intro k hk
    rw [hdt, List.take_take]
    have hmin : min (k + 1) (m.length - 1) = k + 1 := by
      rw [hdlen] at hk
      omega
    rw [hmin]
    have := hpos (k + 1) (by rw [hdlen] at hk; omega) (by omega)
    omega
  have hcalc : m ++ rest = m.dropLast ++ (g :: rest) := by
    conv_lhs => rw [← hsplit]
    simp
  rw [get_json_object_end_index, hcalc, getAux_stays_pos _ _ 0 0 hstay, getAux_cons,
    hD1, hgd]
  norm_num
  omega

/-- A proper prefix of a balanced object text exhausts the scan without a
match. -/
theorem end_index_take_of_balanced (m : List Char) (hm : BalancedObject m) (k : Nat)
    (hk : k < m.length) : get_json_object_end_index (m.take k) = -1 := by
  obtain ⟨hlen, htot, hpos⟩ := hm
  have hstay : ∀ i, i < (m.take k).length → 0 < 0 + depthList ((m.take k).take (i + 1)) := by
    intro i hi
    rw [List.length_take] at hi
    have hik : i < k := lt_of_lt_of_le hi (min_le_left _ _)
    rw [List.take_take]
    have hmin : min (i + 1) k = i + 1 := by omega
    rw [hmin]
    have := hpos (i + 1) (by omega) (by omega)
    omega
  have h := getAux_stays_pos (m.take k) [] 0 0 hstay
  rw [List.append_nil] at h
  rw [get_json_object_end_index, h]
  rfl

/-- A buffer whose first character is not a curly brace makes the scan stop
at position 1 with a zero count. -/
theorem end_index_nonbrace_head (c : Char) (s : List Char) (h1 : c ≠ '{')
    (h2 : c ≠ '}') : get_json_object_end_index (c :: s) = 1 := by
  rw [get_json_object_end_index, getAux_cons]
  simp [braceDelta, h1, h2]

theorem take_of_append_eq_append {a t m u : List Char} (h : a ++ t = m ++ u)
    (hle : a.length ≤ m.length) : a = m.take a.length :=
  calc a = List.take a.length (a ++ t) := (List.take_left a t).symm
    _ = List.take a.length (m ++ u) := by rw [h]
    _ = List.take a.length m := by
        rw [List.take_append_eq_append_take]
        have hz : a.length - m.length = 0 := by omega
        simp [hz]

theorem split_of_append_eq_append {a t m u : List Char} (h : a ++ t = m ++ u)
    (hge : m.length ≤ a.length) : ∃ x, a = m ++ x ∧ x ++ t = u := by
  have h3 : a.take m.length = m :=
    calc List.take m.length a = List.take m.length (a ++ t) := by
          rw [List.take_append_eq_append_take]
          have hz : m.length - a.length = 0 := by omega
          simp [hz]
      _ = List.take m.length (m ++ u) := by rw [h]
      _ = m := List.take_left m u
  have ha : a = m ++ a.drop m.length := by
    conv_lhs => rw [← List.take_append_drop m.length a]
    rw [h3]
  refine ⟨a.drop m.length, ha, ?_⟩
  have h4 : (m ++ a.drop m.length) ++ t = m ++ u := by rw [← ha]; exact h
  rw [List.append_assoc] at h4
  exact List.append_cancel_left h4

/-- One recv from a chunk source consumes the head of the remaining chunk
list: the flattened remainder splits off the current chunk. -/
theorem flatten_drop_succ (chunks : List (List Char)) (p : Nat) :
    (chunks.drop p).flatten = chunkSource chunks p ++ (chunks.drop (p + 1)).flatten := by
  rw [chunkSource, ← List.tail_drop]
  cases h : chunks.drop p with
  | nil => simp
  | cons c rest => simp

/-- Any successful recv aggregation advances the position and splits exactly
the aggregated data off the flattened remaining chunks. -/
theorem recvAll_spec (chunks : List (List Char)) :
    ∀ fuel pos data pos1,
      recvAll (chunkSource chunks) pos fuel = some (data, pos1) →
      pos < pos1 ∧
        (chunks.drop pos).flatten = data ++ (chunks.drop pos1).flatten := by
  intro fuel
  induction fuel with
  | zero => intro pos data pos1 h; simp [recvAll] at h
  | succ fuel ih =>
    intro pos data pos1 h
    simp only [recvAll] at h
    split at h
    · simp only [Option.some.injEq, Prod.mk.injEq] at h
      obtain ⟨rfl, rfl⟩ := h
      exact ⟨by omega, flatten_drop_succ chunks pos⟩
    · split at h
      · rename_i rest pos2 hrec
        simp only [Option.some.injEq, Prod.mk.injEq] at h
        obtain ⟨rfl, rfl⟩ := h
        obtain ⟨hlt, hfl⟩ := ih (pos + 1) rest pos2 hrec
        refine ⟨by omega, ?_⟩
        rw [flatten_drop_succ chunks pos, hfl, List.append_assoc]
      · exact absurd h (by simp)

/-- With enough fuel every recv aggregation from a chunk source succeeds,
because chunks at or beyond the end of the list are empty and therefore
short. -/
theorem recvAll_total (chunks : List (List Char)) :
    ∀ fuel pos, 1 ≤ fuel → chunks.length + 1 ≤ pos + fuel →
      ∃ data pos1, recvAll (chunkSource chunks) pos fuel = some (data, pos1) := by
  intro fuel
  induction fuel with
  | zero => intro pos h1 _; omega
  | succ fuel ih =>
    intro pos _ h2
    simp only [recvAll]
    by_cases hs : (chunkSource chunks pos).length < BUFF_SIZE
    · rw [if_pos hs]
      exact ⟨_, _, rfl⟩
    · rw [if_neg hs]
      have hlen : pos < chunks.length := by
        by_contra hge
        have hnil : chunks.drop pos = [] := List.drop_eq_nil_of_le (by omega)
        rw [chunkSource, hnil] at hs
        simp [BUFF_SIZE] at hs
      obtain ⟨data, pos1, hrec⟩ := ih (pos + 1) (by omega) (by omega)
      rw [hrec]
      exact ⟨_, _, rfl⟩

/-- Conservation law of the refill loop: the matched prefix, the retained
remainder and the unread part of the source together reconstitute the
initial buffer plus the unread source. -/
theorem receiveJsonLoop_spec (chunks : List (List Char)) :
    ∀ fuel js pos res inp pos1,
      receiveJsonLoop (chunkSource chunks) js pos fuel = some (res, inp, pos1) →
      res ++ inp ++ (chunks.drop pos1).flatten = js ++ (chunks.drop pos).flatten := by
  intro fuel
  induction fuel with
  | zero => intro js pos res inp pos1 h; simp [receiveJsonLoop] at h
  | succ fuel ih =>
    intro js pos res inp pos1 h
    simp only [receiveJsonLoop] at h
    split at h
    · simp at h
    · rename_i data pos2 hrec
      obtain ⟨hlt, hfl⟩ := recvAll_spec chunks (fuel + 1) pos data pos2 hrec
      split at h
      · simp only [Option.some.injEq, Prod.mk.injEq] at h
        obtain ⟨h1, h2, h3⟩ := h
        subst h1; subst h2; subst h3
        rw [List.take_append_drop, hfl, ← List.append_assoc]
      · have := ih (js ++ data) pos2 res inp pos1 h
        rw [this, List.append_assoc, ← hfl]

/-- In a stream whose unread content starts with a balanced message `m`, a
successful refill loop returns exactly `m` and retains a buffer that, with
the still-unread source, is exactly the rest of the stream. -/
theorem receiveJsonLoop_sound (chunks : List (List Char)) (m : List Char)
    (hm : BalancedObject m) :
    ∀ fuel js pos rest res inp pos1,
      js ++ (chunks.drop pos).flatten = m ++ rest →
      receiveJsonLoop (chunkSource chunks) js pos fuel = some (res, inp, pos1) →
      res = m ∧ inp ++ (chunks.drop pos1).flatten = rest := by
  intro fuel
  induction fuel with
  | zero => intro js pos rest res inp pos1 _ h; simp [receiveJsonLoop] at h
  | succ fuel ih =>
    intro js pos rest res inp pos1 hinv h
    simp only [receiveJsonLoop] at h
    split at h
    · simp at h
    · rename_i data pos2 hrec
      obtain ⟨hlt, hfl⟩ := recvAll_spec chunks (fuel + 1) pos data pos2 hrec
      have hinv2 : (js ++ data) ++ (chunks.drop pos2).flatten = m ++ rest := by
        rw [List.append_assoc, ← hfl]
        exact hinv
      split at h
      · rename_i he
        by_cases hc : (js ++ data).length < m.length
        · have hpref := take_of_append_eq_append hinv2 (le_of_lt hc)
          rw [hpref, end_index_take_of_balanced m hm _ hc] at he
          omega
        · push_neg at hc
          obtain ⟨x, hax, hxu⟩ := split_of_append_eq_append hinv2 hc
          rw [hax, end_index_balanced_append m x hm] at he h
          simp only [Option.some.injEq, Prod.mk.injEq] at h
          obtain ⟨h1, h2, h3⟩ := h
          subst h1; subst h2; subst h3
          have htn : ((m.length : Int)).toNat = m.length := Int.toNat_natCast m.length
          rw [htn]
          refine ⟨List.take_left m x, ?_⟩
          rw [List.drop_left m x]
          exact hxu
      · exact ih (js ++ data) pos2 rest res inp pos1 hinv2 h

/-- In a stream whose unread content starts with a balanced message, the
refill loop terminates once the fuel covers the chunk list. -/
theorem receiveJsonLoop_total (chunks : List (List Char)) (m : List Char)
    (hm : BalancedObject m) :
    ∀ fuel js pos rest,
      js ++ (chunks.drop pos).flatten = m ++ rest →
      1 ≤ fuel → chunks.length + 1 ≤ pos + fuel →
      ∃ out, receiveJsonLoop (chunkSource chunks) js pos fuel = some out := by
  intro fuel
  induction fuel with
  | zero => intro js pos rest _ h1 _; omega
  | succ fuel ih =>
    intro js pos rest hinv _ h2
    obtain ⟨data, pos2, hrec⟩ := recvAll_total chunks (fuel + 1) pos (by omega) h2
    obtain ⟨hlt, hfl⟩ := recvAll_spec chunks (fuel + 1) pos data pos2 hrec
    have hinv2 : (js ++ data) ++ (chunks.drop pos2).flatten = m ++ rest := by
      rw [List.append_assoc, ← hfl]
      exact hinv
    simp only [receiveJsonLoop, hrec]
    by_cases he : 1 < get_json_object_end_index (js ++ data)
    · rw [if_pos he]
      exact ⟨_, rfl⟩
    · rw [if_neg he]
      have hproper : (js ++ data).length < m.length := by
        by_contra hge
        push_neg at hge
        obtain ⟨x, hax, _⟩ := split_of_append_eq_append hinv2 hge
        rw [hax, end_index_balanced_append m x hm] at he
        have h2le := hm.1
        omega
      have hf1 : 1 ≤ fuel := by
        by_contra hf0
        have hfz : fuel = 0 := by omega
        subst hfz
        have hple : chunks.length ≤ pos := by omega
        have hnil : chunks.drop pos = [] := List.drop_eq_nil_of_le hple
        rw [hnil] at hinv
        simp at hinv
        have hjs : js.length = m.length + rest.length := by
          rw [hinv, List.length_append]
        have := List.length_append js data
        omega
      exact ih (js ++ data) pos2 rest hinv2 hf1 (by omega)

/-- One `receive_json` call on a connection whose buffered plus unread
content starts with a balanced message returns exactly that message, for
some sufficient fuel, leaving buffer plus unread source equal to the
rest. -/
theorem receive_json_step (chunks : List (List Char)) (m : List Char) (rest : List Char)
    (hm : BalancedObject m) (pos : Nat) (input : List Char)
    (hinv : input ++ (chunks.drop pos).flatten = m ++ rest) :
    ∃ fuel pos1 inp,
      receive_json (chunkSource chunks) ⟨some (), pos, input⟩ fuel =
        RecvResult.ok m ⟨some (), pos1, inp⟩ ∧
      inp ++ (chunks.drop pos1).flatten = rest := by
  by_cases he : 1 < get_json_object_end_index input
  · have hge : m.length ≤ input.length := by
      by_contra hlt
      push_neg at hlt
      have hpref := take_of_append_eq_append hinv (le_of_lt hlt)
      rw [hpref, end_index_take_of_balanced m hm _ hlt] at he
      omega
    obtain ⟨x, hax, hxu⟩ := split_of_append_eq_append hinv hge
    refine ⟨0, pos, x, ?_, hxu⟩
    have he2 : get_json_object_end_index input = (m.length : Int) := by
      rw [hax]
      exact end_index_balanced_append m x hm
    simp only [receive_json, he2]
    rw [if_pos (by exact_mod_cast he2 ▸ he)]
    have htn : ((m.length : Int)).toNat = m.length := Int.toNat_natCast m.length
    rw [htn, hax, List.take_left m x, List.drop_left m x]
  · obtain ⟨out, hout⟩ :=
      receiveJsonLoop_total chunks m hm (chunks.length + 1) input pos rest hinv
        (by omega) (by omega)
    obtain ⟨res, inp, pos1⟩ := out
    obtain ⟨hres, hinp⟩ :=
      receiveJsonLoop_sound chunks m hm (chunks.length + 1) input pos rest res inp pos1
        hinv hout
    subst hres
    refine ⟨chunks.length + 1, pos1, inp, ?_, hinp⟩
    simp only [receive_json]
    rw [if_neg he, hout]

/-- Induction form of the frame-reader correctness property: with the
connection invariant (buffer plus unread source equals the pending
balanced messages), successive `receive_json` calls return the messages in
order. -/
theorem yields_of_invariant (chunks : List (List Char)) :
    ∀ msgs pos input,
      (∀ m ∈ msgs, BalancedObject m) →
      input ++ (chunks.drop pos).flatten = msgs.flatten →
      YieldsMsgs (chunkSource chunks) ⟨some (), pos, input⟩ msgs := by
  intro msgs
  induction msgs with
  | nil => intro pos input _ _; trivial
  | cons m rest ih =>
    intro pos input hbal hinv
    have hm : BalancedObject m := hbal m (by simp)
    rw [List.flatten_cons] at hinv
    obtain ⟨fuel, pos1, inp, hok, hinv1⟩ :=
      receive_json_step chunks m rest.flatten hm pos input hinv
    exact ⟨fuel, _, hok, ih pos1 inp (fun x hx => hbal x (by simp [hx])) hinv1⟩

/-- C2: for every `perform_command` whose received response envelope has
`success = false`, an error type equal to `"TaskCanceledException"` raises
the distinct cancellation signal, and any other error type raises the
generic server fault carrying the original command and the verbatim error
type and message strings. -/
theorem perform_command_error_taxonomy {γ α : Type} (command : γ)
    (cls : Option (α → α)) (response : CommandResponse α)
    (hfail : response.success = false) :
    (response.error_type = "TaskCanceledException" →
      perform_command command cls response =
        CommandOutcome.taskCanceled response.error_message) ∧
    (response.error_type ≠ "TaskCanceledException" →
      perform_command command cls response =
        CommandOutcome.internalServer command response.error_type
          response.error_message) := by
  constructor
  · intro ht
    simp [perform_command, hfail, ht]
  · intro ht
    simp [perform_command, hfail, ht]

/-- Witness for C2 at a concrete failed response. -/
theorem perform_command_error_taxonomy_witness :
    (CommandResponse.mk false "BadRequest" "boom" (none : Option Unit)).success = false ∧
    (((CommandResponse.mk false "BadRequest" "boom" (none : Option Unit)).error_type =
        "TaskCanceledException" →
      perform_command () (none : Option (Unit → Unit))
          (CommandResponse.mk false "BadRequest" "boom" none) =
        CommandOutcome.taskCanceled "boom") ∧
    ((CommandResponse.mk false "BadRequest" "boom" (none : Option Unit)).error_type ≠
        "TaskCanceledException" →
      perform_command () (none : Option (Unit → Unit))
          (CommandResponse.mk false "BadRequest" "boom" none) =
        CommandOutcome.internalServer () "BadRequest" "boom")) :=
  ⟨rfl, perform_command_error_taxonomy () none (CommandResponse.mk false "BadRequest" "boom" none) rfl⟩

/-- C3 is refuted by the code: `connect` has no cleanup path, so on every
outcome — the five failure modes included — the socket attribute is still
set and no transport close was performed when `connect` returns or
raises. -/
theorem connect_never_closes_socket (w : HandshakeWorld) :
    (connect w).2.1.socket = some () ∧ TransportOp.close ∉ (connect w).2.2 := by
  unfold connect
  cases hco : w.connectOk <;> cases hg : w.greeting <;>
    cases hcp : w.compatible <;> cases hso : w.sendOk <;> cases hrs : w.respSuccess <;>
    simp

/-- C4: with an incompatible greeting version, `connect` fails with the
incompatibility error and no send was performed on the transport. -/
theorem connect_incompatible_before_send (w : HandshakeWorld)
    (hok : w.connectOk = true) (g : ServerInitMessage) (hg : w.greeting = some g)
    (hinc : w.compatible = false) :
    (connect w).1 = HandshakeResult.incompatibleVersion ∧
    TransportOp.send ∉ (connect w).2.2 := by
  unfold connect
  rw [hok, hg, hinc]
  simp

/-- Witness for C4 at a concrete incompatible handshake environment. -/
theorem connect_incompatible_before_send_witness :
    incompatibleWorld.connectOk = true ∧ incompatibleWorld.compatible = false ∧
    ((connect incompatibleWorld).1 = HandshakeResult.incompatibleVersion ∧
      TransportOp.send ∉ (connect incompatibleWorld).2.2) :=
  ⟨rfl, rfl, connect_incompatible_before_send incompatibleWorld rfl ⟨1, "srv"⟩ rfl rfl⟩

/-- C8: `close` is idempotent — the second of two successive calls performs
no transport close, a single call performs at most one, and closing a
never-connected (socket `none`) connection is a no-op. -/
theorem close_idempotent (socket : Option Unit) :
    (close (close socket).1).1 = (close socket).1 ∧
    (close (close socket).1).2 = [] ∧
    (close socket).2.length ≤ 1 ∧
    close none = (none, []) := by
  cases socket <;> simp [close]

/-- C9: `receive_json` on a connection whose socket attribute is `None`
raises the runtime error, for every byte source and every fuel — in
particular the result does not depend on the transport at all, so no read
is attempted and the buffer is untouched. -/
theorem receive_json_missing_socket_err (src src2 : Nat → List Char)
    (pos : Nat) (input : List Char) (fuel fuel2 : Nat) :
    receive_json src ⟨none, pos, input⟩ fuel = RecvResult.err ∧
    receive_json src ⟨none, pos, input⟩ fuel =
      receive_json src2 ⟨none, pos, input⟩ fuel2 :=
  ⟨rfl, rfl⟩

/-- On a source whose every recv returns the empty chunk (peer closed), the
refill loop never finds an object if the buffer holds none, for any
fuel. -/
theorem receiveJsonLoop_empty_source :
    ∀ fuel js pos, get_json_object_end_index js ≤ 1 →
      receiveJsonLoop (chunkSource []) js pos fuel = none := by
  intro fuel
  induction fuel with
  | zero => intros; rfl
  | succ fuel ih =>
    intro js pos hj
    have hr : recvAll (chunkSource []) pos (fuel + 1) = some ([], pos + 1) := by
      simp only [recvAll]
      rw [if_pos (by simp [chunkSource, BUFF_SIZE])]
      simp [chunkSource]
    simp only [receiveJsonLoop, hr]
    rw [List.append_nil, if_neg (by omega)]
    exact ih js (pos + 1) hj

/-- C5 shows a code bug: on a transport closed by the peer with no data
available while the buffer holds no complete object, `receive_json` does
not fail with a connection-closed error — it re-reads the empty result
forever (here: `timeout` for every fuel). -/
theorem receive_json_closed_transport_loops (pos : Nat) (input : List Char)
    (hno : get_json_object_end_index input ≤ 1) (fuel : Nat) :
    receive_json (chunkSource []) ⟨some (), pos, input⟩ fuel = RecvResult.timeout := by
  simp only [receive_json]
  rw [if_neg (by omega), receiveJsonLoop_empty_source fuel input pos hno]

/-- Witness for C5 at the empty buffer. -/
theorem receive_json_closed_transport_loops_witness :
    get_json_object_end_index [] ≤ 1 ∧
    receive_json (chunkSource []) ⟨some (), 0, []⟩ 5 = RecvResult.timeout :=
  ⟨by decide, receive_json_closed_transport_loops 0 [] (by decide) 5⟩

/-- A buffer headed by a non-brace character keeps end index 1 forever, so
the refill loop never matches, for any source and fuel. -/
theorem receiveJsonLoop_nonbrace_head (c : Char) (h1 : c ≠ '{') (h2 : c ≠ '}')
    (src : Nat → List Char) :
    ∀ fuel s pos, receiveJsonLoop src (c :: s) pos fuel = none := by
  intro fuel
  induction fuel with
  | zero => intros; rfl
  | succ fuel ih =>
    intro s pos
    simp only [receiveJsonLoop]
    cases hr : recvAll src pos (fuel + 1) with
    | none => rfl
    | some dp =>
      obtain ⟨data, pos1⟩ := dp
      simp only [List.cons_append]
      rw [if_neg (by rw [end_index_nonbrace_head c _ h1 h2]; omega)]
      exact ih (s ++ data) pos1

/-- C10: a non-brace first character makes the scan return 1;
`receive_json` treats an end index of at most 1 as no object found, so a
buffer headed by such a character is never split into a frame and its
leading character is never consumed — the call loops for every fuel. -/
theorem receive_json_nonbrace_head_never_consumed (c : Char) (s : List Char)
    (h1 : c ≠ '{') (h2 : c ≠ '}') :
    get_json_object_end_index (c :: s) = 1 ∧
    ∀ (src : Nat → List Char) (pos fuel : Nat),
      receive_json src ⟨some (), pos, c :: s⟩ fuel = RecvResult.timeout := by
  refine ⟨end_index_nonbrace_head c s h1 h2, ?_⟩
  intro src pos fuel
  simp only [receive_json]
  rw [if_neg (by rw [end_index_nonbrace_head c s h1 h2]; omega),
    receiveJsonLoop_nonbrace_head c h1 h2 src fuel s pos]

/-- Witness for C10 at the buffer consisting of the letter a. -/
theorem receive_json_nonbrace_head_never_consumed_witness :
    ('a' ≠ '{' ∧ 'a' ≠ '}') ∧
    get_json_object_end_index ['a'] = 1 ∧
    receive_json (chunkSource []) ⟨some (), 0, ['a']⟩ 3 = RecvResult.timeout :=
  ⟨⟨by decide, by decide⟩,
    (receive_json_nonbrace_head_never_consumed 'a' [] (by decide) (by decide)).1,
    (receive_json_nonbrace_head_never_consumed 'a' [] (by decide) (by decide)).2
      (chunkSource []) 0 3⟩

/-- Adjacent prefix counts differ by at most one downward step. -/
theorem depthList_take_succ_ge (s : List Char) (j : Nat) :
    depthList (s.take j) - 1 ≤ depthList (s.take (j + 1)) := by
  rw [List.take_succ, depthList_append]
  cases h : s[j]? with
  | none => simp [depthList]
  | some c =>
    simp only [Option.toList]
    have := neg_one_le_braceDelta c
    simp [depthList]
    omega

/-- C7: whenever the running brace count of the scan goes negative while the
scan is still in progress (no earlier position brought the count back to
zero), `get_json_object_end_index` reports no complete object (-1). -/
theorem end_index_neg_on_negative_scan (s : List Char)
    (h : ∃ i, i < s.length ∧ depthList (s.take (i + 1)) < 0 ∧
      ∀ j, 0 < j → j ≤ i → depthList (s.take j) ≠ 0) :
    get_json_object_end_index s = -1 := by
  obtain ⟨i, hi, hneg, hzero⟩ := h
  cases s with
  | nil => simp at hi
  | cons c t =>
    by_cases hc : c = '}'
    · subst hc
      have hb : braceDelta '}' = -1 := by decide
      rw [get_json_object_end_index, getAux_cons, hb]
      norm_num
    · have hd : 0 ≤ braceDelta c := by
        unfold braceDelta
        split_ifs <;> omega
      have hd1 : depthList ((c :: t).take 1) = braceDelta c := by
        simp [depthList]
      rcases Nat.eq_zero_or_pos i with hi0 | hip
      · subst hi0
        rw [hd1] at hneg
        omega
      · have hpos : ∀ j, j ≤ i → 0 < j → 0 < depthList ((c :: t).take j) := by
          intro j
          induction j with
          | zero => intro _ h0; omega
          | succ j ihj =>
            intro hji _
            rcases Nat.eq_zero_or_pos j with hj0 | hjp
            · subst hj0
              have hne := hzero 1 (by omega) (by omega)
              rw [hd1] at hne ⊢
              omega
            · have hprev := ihj (by omega) hjp
              have hstep := depthList_take_succ_ge (c :: t) j
              have hne := hzero (j + 1) (by omega) hji
              omega
        have hlast := hpos i (le_refl i) hip
        have hstep := depthList_take_succ_ge (c :: t) i
        omega

/-- Witness for C7 at the one-character buffer consisting of a closing
brace. -/
theorem end_index_neg_on_negative_scan_witness :
    (0 < (['}'] : List Char).length ∧ depthList ((['}'] : List Char).take (0 + 1)) < 0) ∧
    get_json_object_end_index ['}'] = -1 :=
  ⟨⟨by decide, by decide⟩,
    end_index_neg_on_negative_scan ['}']
      ⟨0, by decide, by decide, by intro j hj1 hj2; omega⟩⟩

/-- C6 (amended): every successful `receive_json` call satisfies the
buffer-split conservation law — returned text plus retained buffer plus
unread source equals pre-call buffer plus pre-call unread source — and
when the pending content is a brace-balanced message followed by the rest
of the stream, the returned text is exactly that message and the retained
buffer is a prefix of the rest (whole later messages plus at most one
trailing partial fragment).  The restriction to brace-balanced pending
messages is forced by the counterexample below: on a valid JSON object
with braces inside a string payload the code violates the retained-buffer
invariant. -/
theorem receive_json_buffer_split (chunks : List (List Char)) (st : ConnState)
    (fuel : Nat) (r : List Char) (st1 : ConnState)
    (hok : receive_json (chunkSource chunks) st fuel = RecvResult.ok r st1) :
    r ++ st1.input ++ (chunks.drop st1.pos).flatten =
      st.input ++ (chunks.drop st.pos).flatten ∧
    ∀ m rest, BalancedObject m →
      st.input ++ (chunks.drop st.pos).flatten = m ++ rest →
      r = m ∧ ∃ t, st1.input ++ t = rest := by
  obtain ⟨sock, pos, input⟩ := st
  cases sock with
  | none => simp [receive_json] at hok
  | some u =>
    simp only [receive_json] at hok
    split at hok
    · rename_i he
      simp only [RecvResult.ok.injEq] at hok
      obtain ⟨rfl, rfl⟩ := hok
      dsimp only
      constructor
      · rw [List.take_append_drop]
      · intro m rest hm hinv
        have hge : m.length ≤ input.length := by
          by_contra hlt
          push_neg at hlt
          have hpref := take_of_append_eq_append hinv (le_of_lt hlt)
          rw [hpref, end_index_take_of_balanced m hm _ hlt] at he
          omega
        obtain ⟨x, hax, hxu⟩ := split_of_append_eq_append hinv hge
        have he2 : get_json_object_end_index input = (m.length : Int) := by
          rw [hax]
          exact end_index_balanced_append m x hm
        have htn : ((m.length : Int)).toNat = m.length := Int.toNat_natCast m.length
        rw [he2, htn, hax, List.take_left m x, List.drop_left m x]
        exact ⟨rfl, (chunks.drop pos).flatten, hxu⟩
    · rename_i he
      split at hok
      · simp at hok
      · rename_i res inp pos1 hl
        simp only [RecvResult.ok.injEq] at hok
        obtain ⟨rfl, rfl⟩ := hok
        dsimp only
        refine ⟨receiveJsonLoop_spec chunks fuel input pos res inp pos1 hl, ?_⟩
        intro m rest hm hinv
        obtain ⟨hres, hinp⟩ :=
          receiveJsonLoop_sound chunks m hm fuel input pos rest res inp pos1 hinv hl
        exact ⟨hres, (chunks.drop pos1).flatten, hinp⟩

/-- Witness for C6 at a concrete successful call. -/
theorem receive_json_buffer_split_witness :
    receive_json (chunkSource [['{', '}']]) ⟨some (), 0, []⟩ 1 =
      RecvResult.ok ['{', '}'] ⟨some (), 1, []⟩ ∧
    (['{', '}'] ++ (⟨some (), 1, ([] : List Char)⟩ : ConnState).input ++
        ([['{', '}']].drop (⟨some (), 1, ([] : List Char)⟩ : ConnState).pos).flatten =
      (⟨some (), 0, ([] : List Char)⟩ : ConnState).input ++
        ([['{', '}']].drop (⟨some (), 0, ([] : List Char)⟩ : ConnState).pos).flatten ∧
    ∀ m rest, BalancedObject m →
      (⟨some (), 0, ([] : List Char)⟩ : ConnState).input ++
          ([['{', '}']].drop (⟨some (), 0, ([] : List Char)⟩ : ConnState).pos).flatten =
        m ++ rest →
      ['{', '}'] = m ∧ ∃ t, (⟨some (), 1, ([] : List Char)⟩ : ConnState).input ++ t = rest) :=
  ⟨by decide,
    receive_json_buffer_split [['{', '}']] ⟨some (), 0, []⟩ 1 ['{', '}']
      ⟨some (), 1, []⟩ (by decide)⟩

/-- C6 as stated is refuted by the code: deliver the single syntactically
valid JSON object `nestedBracePayloadMsg` (member value contains the
characters closing brace, opening brace, closing brace), so that the
pre-call buffer plus all stream bytes equal that one object with no later
messages.  The successful call returns only its first seven characters and
retains its last four — a buffer that is not a prefix of the (empty)
later-messages concatenation and whose own two-character prefix is a
complete-object frame: the next call splits it off and returns a phantom
frame that was never a sent message. -/
theorem receive_json_buffer_split_cex :
    JsonObjectText nestedBracePayloadMsg ∧
    ([] : List Char) ++ ([nestedBracePayloadMsg].drop 0).flatten =
      nestedBracePayloadMsg ++ ([] : List Char) ∧
    receive_json (chunkSource [nestedBracePayloadMsg]) ⟨some (), 0, []⟩ 2 =
      RecvResult.ok (nestedBracePayloadMsg.take 7)
        ⟨some (), 1, nestedBracePayloadMsg.drop 7⟩ ∧
    nestedBracePayloadMsg.take 7 ≠ nestedBracePayloadMsg ∧
    ¬ (∃ t : List Char, nestedBracePayloadMsg.drop 7 ++ t = ([] : List Char)) ∧
    get_json_object_end_index (nestedBracePayloadMsg.drop 7) = 2 ∧
    receive_json (chunkSource [nestedBracePayloadMsg])
        ⟨some (), 1, nestedBracePayloadMsg.drop 7⟩ 0 =
      RecvResult.ok ['{', '}'] ⟨some (), 1, ['"', '}']⟩ := by
  refine ⟨?_, by decide, by decide, by decide, ?_, by decide, by decide⟩
  · have hk : JsonStringText ['"', 'a', '"'] :=
      ⟨['a'], JsonStringBody.plain 'a' [] (by decide) (by decide) JsonStringBody.nil, rfl⟩
    have hv : JsonStringText ['"', '}', '{', '}', '"'] :=
      ⟨['}', '{', '}'],
        JsonStringBody.plain '}' _ (by decide) (by decide)
          (JsonStringBody.plain '{' _ (by decide) (by decide)
            (JsonStringBody.plain '}' _ (by decide) (by decide) JsonStringBody.nil)),
        rfl⟩
    have hms : JsonMembersText (['"', 'a', '"'] ++ ':' :: ['"', '}', '{', '}', '"']) :=
      JsonMembersText.single _ _ hk (JsonValueText.strV _ hv)
    have hobj := JsonObjectText.nonempty _ hms
    have heq : ('{' :: (['"', 'a', '"'] ++ ':' :: ['"', '}', '{', '}', '"']) ++ ['}']) =
        nestedBracePayloadMsg := by decide
    exact heq ▸ hobj
  · rintro ⟨t, ht⟩
    have hd : nestedBracePayloadMsg.drop 7 = ['{', '}', '"', '}'] := by decide
    rw [hd] at ht
    simp at ht

/-- C1 (amended): for every sequence of messages whose texts are
brace-balanced (positive brace count on all nonempty proper prefixes, zero
at the end — equivalently, JSON object texts with no curly brace inside a
string literal), delivered across an arbitrary chunking of the byte
stream, successive `receive_json` calls return exactly those texts in
order, each byte-identical to the original. -/
theorem receive_json_yields_balanced_messages
    (msgs chunks : List (List Char))
    (hbal : ∀ m ∈ msgs, BalancedObject m)
    (hchunks : chunks.flatten = msgs.flatten) :
    YieldsMsgs (chunkSource chunks) ⟨some (), 0, []⟩ msgs := by
  apply yields_of_invariant chunks msgs 0 []
  · exact hbal
  · simpa using hchunks

/-- Witness for the amended C1: two balanced messages delivered one byte per
recv. -/
theorem receive_json_yields_balanced_messages_witness :
    (∀ m ∈ [['{', '}'], ['{', '{', '}', '}']], BalancedObject m) ∧
    YieldsMsgs (chunkSource [['{'], ['}'], ['{'], ['{'], ['}'], ['}']])
      ⟨some (), 0, []⟩ [['{', '}'], ['{', '{', '}', '}']] :=
  ⟨by decide,
    receive_json_yields_balanced_messages [['{', '}'], ['{', '{', '}', '}']]
      [['{'], ['}'], ['{'], ['{'], ['}'], ['}']] (by decide) (by decide)⟩

/-- C1 as stated is refuted by the code: `bracePayloadMsg` is the text of a
syntactically valid JSON object, but when it is delivered whole as a
single chunk the one `receive_json` call returns only its first seven
characters — the brace scan does not skip braces inside string literals,
so the returned text is not byte-identical to the object text (and is not
even valid JSON). -/
theorem receive_json_not_byte_identical_cex :
    JsonObjectText bracePayloadMsg ∧
    receive_json (chunkSource [bracePayloadMsg]) ⟨some (), 0, []⟩ 2 =
      RecvResult.ok (bracePayloadMsg.take 7) ⟨some (), 1, bracePayloadMsg.drop 7⟩ ∧
    bracePayloadMsg.take 7 ≠ bracePayloadMsg := by
  refine ⟨?_, by decide, by decide⟩
  have hk : JsonStringText ['"', 'a', '"'] :=
    ⟨['a'], JsonStringBody.plain 'a' [] (by decide) (by decide) JsonStringBody.nil, rfl⟩
  have hv : JsonStringText ['"', '}', '"'] :=
    ⟨['}'], JsonStringBody.plain '}' [] (by decide) (by decide) JsonStringBody.nil, rfl⟩
  have hms : JsonMembersText (['"', 'a', '"'] ++ ':' :: ['"', '}', '"']) :=
    JsonMembersText.single _ _ hk (JsonValueText.strV _ hv)
  have hobj := JsonObjectText.nonempty _ hms
  have heq : ('{' :: (['"', 'a', '"'] ++ ':' :: ['"', '}', '"']) ++ ['}']) =
      bracePayloadMsg := by decide
  exact heq ▸ hobj

end DSF
